import Mathlib

/-!
Verification development for the `fdn` file/directory renaming tool
(`src/lib.rs`, `src/main.rs`).  Names and directory paths are modelled as
lists of characters; the external `utils` collaborators (store, hashing,
encryption, hex/UTF-8 decoding, diff rendering) are not part of `src/` and
are modelled from the specification's collaborator contracts (spec §6).
-/

namespace Fdn

/-- Bare names and path strings, as character lists (Rust `String`). -/
abbrev Name := List Char

/-! ### Rust `str::replace` (used by the substitution loops in `fdn_f`) -/

/-- Auxiliary recursion for `strReplace`: leftmost, non-overlapping
replacement of the non-empty pattern `p :: ps` by `rep`, scanning the
string one character at a time.  `skip` counts characters still to be
consumed as the tail of an already-replaced match. -/
def replaceGo (p : Char) (ps rep : List Char) : List Char → Nat → List Char
  | [], _ => []
  | _ :: rest, skip + 1 => replaceGo p ps rep rest skip
  | c :: rest, 0 =>
    if (p :: ps).isPrefixOf (c :: rest) then
      rep ++ replaceGo p ps rep rest ps.length
    else
      c :: replaceGo p ps rep rest 0

/-- Rust `str::replace s pat rep`: replaces every (leftmost,
non-overlapping) occurrence of `pat` in `s` by `rep`.  An empty pattern
matches at every character boundary, interspersing `rep` throughout. -/
def strReplace (s pat rep : List Char) : List Char :=
  match pat with
  | [] => rep ++ s.foldr (fun c acc => c :: (rep ++ acc)) []
  | p :: ps => replaceGo p ps rep s 0

/-- One pass of a substitution loop in `fdn_f` (lines 308-316 and 325-333):
`replacements_map.iter().for_each(|(k, v)| f_stem = f_stem.replace(k, v))`.
The list order models the `HashMap` iteration order of that pass. -/
def replacePass (rules : List (Name × Name)) (s : Name) : Name :=
  rules.foldl (fun acc kv => strReplace acc kv.1 kv.2) s

/-- The `loop { …; if old_f_stem.eq(&f_stem) break; … }` construct of
`fdn_f`, with explicit fuel standing for the unbounded iteration count:
apply `pass` until a pass produces no change. -/
def fixLoop (pass : Name → Name) : Nat → Name → Name
  | 0, s => s
  | n + 1, s =>
    let s' := pass s
    if s' = s then s' else fixLoop pass n s'

/-- The substitution loop reaches a fixed point after finitely many
passes (the Rust `loop` terminates). -/
def LoopTerminates (pass : Name → Name) (s : Name) : Prop :=
  ∃ n, pass (pass^[n] s) = pass^[n] s

/-! ### `remove_continuous` (lines 256-259)

`Regex::new(&format!(r"(?i){}{}+", word, word))` builds the literal word
twice with `+` applied to the final character of the second copy, matched
case-insensitively, and `replace_all` substitutes each (leftmost, greedy)
match by `word`.  We model the separator as a literal pattern (the
configured separator contains no regex metacharacters; the default is
`"_"`), and `(?i)` as simple case folding via `Char.toLower`. -/

/-- Case-insensitive character equality, modelling the regex `(?i)` flag. -/
def ciEq (a b : Char) : Bool := a.toLower = b.toLower

/-- Case-insensitive prefix test. -/
def ciIsPrefixOf : List Char → List Char → Bool
  | [], _ => true
  | _ :: _, [] => false
  | a :: as, b :: bs => ciEq a b && ciIsPrefixOf as bs

/-- Length of the greedy case-insensitive match of the pattern
`w ++ w.dropLast ++ lastChar+` at the front of `s`, if any. -/
def matchLen (w : List Char) (lc : Char) (s : List Char) : Option Nat :=
  if ciIsPrefixOf (w ++ w.dropLast) s then
    if ((s.drop (w ++ w.dropLast).length).takeWhile (fun c => ciEq lc c)).length = 0 then
      none
    else
      some ((w ++ w.dropLast).length
        + ((s.drop (w ++ w.dropLast).length).takeWhile (fun c => ciEq lc c)).length)
  else none

theorem matchLen_pos {w : List Char} {lc : Char} {s : List Char} {m : Nat}
    (hw : w ≠ []) (h : matchLen w lc s = some m) : 1 ≤ m := by
  unfold matchLen at h
  split at h
  · split at h
    · exact absurd h (by simp)
    · cases w with
      | nil => exact absurd rfl hw
      | cons a as =>
        simp only [Option.some.injEq] at h
        omega
  · exact absurd h (by simp)

/-- `replace_all` recursion for `remove_continuous`: scan `s`, replacing
each greedy match of the doubled-word pattern by the word itself.
`skip` counts characters still to be consumed as the tail of an
already-replaced match. -/
def rcGo (a : Char) (w' : List Char) : List Char → Nat → List Char
  | [], _ => []
  | _ :: rest, skip + 1 => rcGo a w' rest skip
  | c :: rest, 0 =>
    match matchLen (a :: w') ((a :: w').getLast (by simp)) (c :: rest) with
    | some m => (a :: w') ++ rcGo a w' rest (m - 1)
    | none => c :: rcGo a w' rest 0

/-- `remove_continuous source word` (lines 256-259): collapse consecutive
case-insensitive repeats of `word` in `source` into a single `word`.
An empty word yields an invalid regex, hence an error (`none`). -/
def removeContinuous (source word : Name) : Option Name :=
  match word with
  | [] => none
  | a :: w' => some (rcGo a w' source 0)

/-! ### `remove_prefix_sep_suffix_sep` (lines 262-265) -/

/-- Strip exactly one leading and one trailing occurrence of `sep`
(Rust `strip_prefix` / `strip_suffix` with `unwrap_or`). -/
def removeXfixSep (s sep : Name) : Name :=
  let s1 := if sep.isPrefixOf s then s.drop sep.length else s
  if sep.isSuffixOf s1 then s1.take (s1.length - sep.length) else s1

/-! ### `Path::file_stem` / `Path::extension` on bare names -/

/-- Index of the last `'.'` in a name, if any. -/
def lastDotIdx (n : Name) : Option Nat :=
  match n.reverse.findIdx? (fun c => c = '.') with
  | none => none
  | some j => some (n.length - 1 - j)

/-- Rust `Path::file_stem` applied to a bare name: `none` for the empty
name and the special components `.` and `..`; otherwise the whole name if
it has no dot or only a leading dot, else the portion before the last dot. -/
def fileStem (n : Name) : Option Name :=
  if n = [] ∨ n = ['.'] ∨ n = ['.', '.'] then none
  else
    match lastDotIdx n with
    | none => some n
    | some 0 => some n
    | some i => some (n.take i)

/-- Rust `Path::extension` applied to a bare name: the portion after the
last dot, unless there is no dot or the only dot is leading. -/
def extensionOf (n : Name) : Option Name :=
  if n = [] ∨ n = ['.'] ∨ n = ['.', '.'] then none
  else
    match lastDotIdx n with
    | none => none
    | some 0 => none
    | some i => some (n.drop (i + 1))

/-! ### Data model (lines 100-150) and spec-modelled collaborators -/

/-- `DirBase` (lines 100-104): parent directory plus bare name. -/
structure DirBase where
  dir : Name
  base : Name
  deriving DecidableEq, Repr

/-- `Record` (lines 131-137): one ledger entry per applied rename. -/
structure Record where
  id : Int
  hashed_current_name : Name
  encrypted_pre_name : Name
  count : Int
  deriving DecidableEq, Repr

/-- Modelled from the spec: the `utils` collaborators used by `lib.rs`
(`hashed_name`, `encrypted`, `decrypted` from `utils`, plus the external
`from_hex` and `String::from_utf8` decoding steps), which are not part of
`src/`.  Spec §6: `fingerprint` is a deterministic function of the name;
`encrypt`/`decrypt` are keyed and may fail; the ciphertext is stored as
printable text whose decryption is hex-decoded and then UTF-8-decoded. -/
structure Crypto where
  hashedName : Name → Name
  encrypted : Name → Name → Option Name
  decrypted : Name → Name → Option Name
  fromHex : Name → Option (List Nat)
  utf8 : List Nat → Option Name

/-- The decryption pipeline of `fdn_rf` (lines 416-419): `decrypted`,
then `from_hex`, then `String::from_utf8`. -/
def decryptChain (c : Crypto) (cipher key : Name) : Option Name :=
  (c.decrypted cipher key).bind fun v =>
    (c.fromHex v).bind fun rt => c.utf8 rt

/-- Spec §6 round-trip contract for the crypto collaborators:
decrypting (and text-decoding) a ciphertext produced for `x` under key
`k`, using key `k`, recovers `x`. -/
def RoundTrip (c : Crypto) : Prop :=
  ∀ x k cip, c.encrypted x k = some cip → decryptChain c cip k = some x

/-- `Record::new origin target` (lines 140-149): fingerprint the new
name, encrypt the old name keyed by the new name, `count = 1`.
`none` models the `?` on `encrypted`. -/
def recordOf (c : Crypto) (origin target : Name) : Option Record :=
  (c.encrypted origin target).map fun e =>
    { id := 0, hashed_current_name := c.hashedName target,
      encrypted_pre_name := e, count := 1 }

/-! ### The name-transformation pipeline of `fdn_f` (lines 268-358)

Filesystem access (`is_file`, `fs::rename`) is modelled by the explicit
`isFile` flag and by renames that succeed; the store connection is the
explicit rule lists and ledger list.  `fuel1`/`fuel2` bound the two
unbounded substitution loops. -/

/-- The default separator `"_"` (lines 112-119) and the selection
`sep[0]` from the retrieved separators (lines 271-278). -/
def sepOf (separators : List Name) : Name :=
  match separators with
  | [] => ['_']
  | s :: _ => s

/-- The stem transformation of `fdn_f` (lines 300-340): to-sep word loop,
term word loop, collapse of repeated separators, single prefix/suffix
separator strip.  `none` models the `?` on `remove_continuous`. -/
def fdnFStem (sep : Name) (toSepWords : List Name) (termWords : List (Name × Name))
    (fuel1 fuel2 : Nat) (stem : Name) : Option Name :=
  (removeContinuous
    (fixLoop (replacePass termWords) fuel2
      (fixLoop (replacePass (toSepWords.map fun w => (w, sep))) fuel1 stem))
    sep).map fun s3 => removeXfixSep s3 sep

/-- The target-name computation of `fdn_f` for the default (no explicit
target) case (lines 289-347): stem/extension split for files, whole name
for directories, the stem pipeline, extension reattach.  `none` models
the `?` on `os2string(f_stem)` and on `remove_continuous`. -/
def fdnFName (separators : List Name) (toSepWords : List Name)
    (termWords : List (Name × Name)) (fuel1 fuel2 : Nat) (isFile : Bool)
    (base : Name) : Option Name :=
  match (if isFile then fileStem base else some base) with
  | none => none
  | some st =>
    match fdnFStem (sepOf separators) toSepWords termWords fuel1 fuel2 st with
    | none => none
    | some finalStem =>
      match (if isFile then extensionOf base else none) with
      | some e => some (finalStem ++ '.' :: e)
      | none => some finalStem

/-- `fdn_f` (lines 268-358): compute the target bare name (the explicit
`target`, when given, bypasses the pipeline), then — when the name
changed and `in_place` is on — rename (modelled as succeeding) and insert
a `Record` into the ledger.  Returns the resulting bare name and ledger. -/
def fdnF (c : Crypto) (separators : List Name) (toSepWords : List Name)
    (termWords : List (Name × Name)) (fuel1 fuel2 : Nat) (db : DirBase)
    (target : Option Name) (isFile : Bool) (inPlace : Bool)
    (ledger : List Record) : Option (Name × List Record) :=
  let computed : Option Name :=
    match target with
    | some tn => some tn
    | none => fdnFName separators toSepWords termWords fuel1 fuel2 isFile db.base
  match computed with
  | none => none
  | some baseName =>
    if baseName ≠ db.base ∧ inPlace then
      (recordOf c db.base baseName).map fun rd => (baseName, ledger ++ [rd])
    else
      some (baseName, ledger)

/-! ### `fdn_rf` (lines 403-435) -/

/-- The `HashMap` lookup of `fdn_rf` (lines 409-413): the map is built by
inserting records in ledger order, so for duplicate fingerprints the last
record wins — the first match in the reversed ledger. -/
def fdnRfLookup (c : Crypto) (rds : List Record) (base : Name) : Option Record :=
  rds.reverse.find? fun rd => rd.hashed_current_name = c.hashedName base

/-- `fdn_rf` (lines 403-435): look up the fingerprint of the current bare
name; on a hit, decrypt the stored previous name (a decode failure is a
hard error, `Except.error`); with `in_place` on, rename back (modelled as
succeeding) and delete the record if its `count` equals one.  Returns the
recovered name (or `none` for a ledger miss) and the resulting ledger. -/
def fdnRf (c : Crypto) (rds : List Record) (db : DirBase) (inPlace : Bool) :
    Except Unit (Option Name × List Record) :=
  match fdnRfLookup c rds db.base with
  | none => .ok (none, rds)
  | some rd =>
    match decryptChain c rd.encrypted_pre_name db.base with
    | none => .error ()
    | some baseName =>
      if inPlace then
        if rd.count = 1 then
          .ok (some baseName, rds.filter fun r => r.id ≠ rd.id)
        else
          .ok (some baseName, rds)
      else
        .ok (some baseName, rds)

/-! ### Diff presentation: `stem_ext`, `s_compare`, `fname_compare` -/

/-- `stem_ext` (lines 619-628): file stem and extension of a bare name;
`os2string` turns an absent stem or absent extension into an error. -/
def stemExt (n : Name) : Option (Name × Name) :=
  match fileStem n, extensionOf n with
  | some s, some e => some (s, e)
  | _, _ => none

/-- Modelled from the spec: `s_compare` lives in the `utils` module,
which is not part of `src/`.  Spec §4.4: both rendering modes differ only
in padding/formatting of the printed diff; we model the rendering as the
identity on both pieces. -/
def sCompare (o e : Name) (_mode : Name) : Option (Name × Name) :=
  some (o, e)

/-- `fname_compare` (lines 605-616): split both names into stem and
extension (an error if either split fails), render each piece, re-join
with a literal `.` where that side has a non-empty extension. -/
def fnameCompare (origin edit mode : Name) : Option (Name × Name) :=
  match stemExt origin with
  | none => none
  | some (os, oe) =>
    match stemExt edit with
    | none => none
    | some (es, ee) =>
      match sCompare os es mode with
      | none => none
      | some (osc, esc) =>
        match sCompare oe ee mode with
        | none => none
        | some (oec, eec) =>
          some (osc ++ (if oe = [] then [] else ['.']) ++ oec,
                esc ++ (if ee = [] then [] else ['.']) ++ eec)

/-! ### Hidden-entry filtering and batch processing -/

/-- `is_hidden_unix` (lines 218-227) on a path's final component:
the bare name begins with `'.'`. -/
def isHiddenDB (db : DirBase) : Bool :=
  match db.base with
  | '.' :: _ => true
  | _ => false

/-- The forward filter of `fdn_fs_post` (line 379):
`!(is_hidden(of) && args.not_ignore_hidden)`. -/
def forwardKept (notIgnoreHidden : Bool) (entries : List (DirBase × Option Name)) :
    List (DirBase × Option Name) :=
  entries.filter fun e => ¬(isHiddenDB e.1 ∧ notIgnoreHidden)

/-- The reverse filter of `fdn_rfs_post` (line 441):
`args.not_ignore_hidden || !is_hidden(f)`. -/
def reverseKept (notIgnoreHidden : Bool) (files : List DirBase) : List DirBase :=
  files.filter fun f => notIgnoreHidden ∨ ¬ isHiddenDB f

/-- The `try_for_each` body of `fdn_fs_post` (lines 376-397) over the
kept entries: run `fdn_f`, then `fname_compare`; an error in either
aborts the batch (first component `false`) while keeping the ledger
mutations made so far. -/
def fsGo (c : Crypto) (separators : List Name) (toSepWords : List Name)
    (termWords : List (Name × Name)) (fuel1 fuel2 : Nat) (isFile : Bool)
    (inPlace align : Bool) :
    List (DirBase × Option Name) → List Record → Bool × List Record
  | [], led => (true, led)
  | (db, tn) :: rest, led =>
    match fdnF c separators toSepWords termWords fuel1 fuel2 db tn isFile inPlace led with
    | none => (false, led)
    | some (rlt, led') =>
      match fnameCompare db.base rlt (if align then ['a'] else []) with
      | none => (false, led')
      | some _ => fsGo c separators toSepWords termWords fuel1 fuel2 isFile inPlace align rest led'

/-- `fdn_fs_post` (lines 361-400): build the target list (all `None`, or
the explicit targets when the lengths agree), apply the hidden filter,
then process each kept entry.  The first component is `false` when the
invocation returned an error. -/
def fdnFsPost (c : Crypto) (separators : List Name) (toSepWords : List Name)
    (termWords : List (Name × Name)) (fuel1 fuel2 : Nat) (isFile : Bool)
    (origins : List DirBase) (targets : List Name)
    (inPlace notIgnoreHidden align : Bool) (led : List Record) :
    Bool × List Record :=
  if targets = [] then
    fsGo c separators toSepWords termWords fuel1 fuel2 isFile inPlace align
      (forwardKept notIgnoreHidden (origins.map fun o => (o, none))) led
  else if origins.length ≠ targets.length then
    (false, led)
  else
    fsGo c separators toSepWords termWords fuel1 fuel2 isFile inPlace align
      (forwardKept notIgnoreHidden (origins.zip (targets.map some))) led

/-- The `while let Some(ref f) = frc` loop of `fdn_rfs_post`
(lines 443-469) for one file: reverse-rename, then render the diff (an
error aborts), and when chain-reversal is on continue from the restored
name until the ledger lookup misses.  Returns (success, restored names in
order, resulting ledger); `fuel` stands for the unbounded iteration. -/
def rfsChain (c : Crypto) (inPlace chainly align : Bool) :
    Nat → List Record → DirBase → Bool × List Name × List Record
  | 0, rds, _ => (true, [], rds)
  | fuel + 1, rds, db =>
    match fdnRf c rds db inPlace with
    | .error _ => (false, [], rds)
    | .ok (none, rds') => (true, [], rds')
    | .ok (some rfBase, rds') =>
      match fnameCompare db.base rfBase (if align then ['a'] else []) with
      | none => (false, [rfBase], rds')
      | some _ =>
        if chainly then
          match rfsChain c inPlace chainly align fuel rds' ⟨db.dir, rfBase⟩ with
          | (ok, l, r) => (ok, rfBase :: l, r)
        else
          (true, [rfBase], rds')

/-- `fdn_rfs_post` (lines 438-475): apply the reverse hidden filter, then
run the reversal loop on each kept file, aborting on the first error. -/
def fdnRfsPost (c : Crypto) (inPlace chainly align notIgnoreHidden : Bool)
    (fuel : Nat) : List DirBase → List Record → Bool × List Record
  | files, led => rfsGo (reverseKept notIgnoreHidden files) led
where
  rfsGo : List DirBase → List Record → Bool × List Record
    | [], led => (true, led)
    | f :: rest, led =>
      match rfsChain c inPlace chainly align fuel led f with
      | (false, _, led') => (false, led')
      | (true, _, led') => rfsGo rest led'

/-! ### `directories` ordering (lines 173-199) -/

/-- Lexicographic comparison of path strings (`OsStr::cmp`). -/
def lexCmp : Name → Name → Ordering
  | [], [] => .eq
  | [], _ :: _ => .lt
  | _ :: _, [] => .gt
  | a :: as, b :: bs =>
    match compare a.toNat b.toNat with
    | .eq => lexCmp as bs
    | o => o

/-- The `sort_by` comparator of `directories` (lines 189-196): reverse
lexicographic order, with the (unreachable) equal case tie-broken by
ascending length. -/
def dirCmp (a b : Name) : Ordering :=
  match lexCmp a b with
  | .eq => compare a.length b.length
  | o => o.swap

/-- `a` sorts no later than `b` under the `directories` comparator. -/
def dirLe (a b : Name) : Bool := dirCmp a b ≠ .gt

/-- `Path::starts_with` between path strings: equality, or a prefix at a
component boundary. -/
def pathStartsWith (p exc : Name) : Bool :=
  p = exc ∨ (exc ++ ['/']).isPrefixOf p

/-- `directories` (lines 173-199) after enumeration: keep the paths not
under an excluded prefix, then sort with the `dirCmp` comparator
(`sort_by` modelled as a stable merge sort). -/
def directoriesModel (paths : List Name) (excludes : List Name) : List Name :=
  (paths.filter fun p => ¬ excludes.any fun exc => pathStartsWith p exc).mergeSort dirLe

/-! ### A concrete collaborator instance for evaluation

A trivial instantiation of the spec §6 contracts, used to evaluate the
embedded code on concrete inputs: the fingerprint is the name itself, the
cipher is the plaintext, and the hex/UTF-8 codec round-trips through
character codes. -/

/-- Concrete collaborator instance satisfying the spec §6 contracts. -/
def tCrypto : Crypto where
  hashedName := id
  encrypted x _ := some x
  decrypted v _ := some v
  fromHex s := some (s.map Char.toNat)
  utf8 l := some (l.map Char.ofNat)

theorem tCrypto_roundTrip : RoundTrip tCrypto := by
  intro x k cip h
  simp only [tCrypto, Option.some.injEq] at h
  subst h
  simp only [decryptChain, tCrypto, Option.some_bind, Option.some.injEq, List.map_map]
  exact List.map_id'' (fun c => Char.ofNat_toNat c) x

/-! ### Claim C2 -/

/-- C2.  The claim states that both `fdn_fs_post` and `fdn_rfs_post` skip
hidden entries unless the not-ignore-hidden flag is set.  The code's
forward filter (line 379, `!(is_hidden(of) && args.not_ignore_hidden)`)
is inverted: with the flag unset a hidden entry is kept (and processed,
inserting a ledger record), and with the flag set it is dropped.  The
reverse filter (line 441) behaves as the claim states.  This theorem
exhibits all four cases on the hidden entry `.hidden`. -/
theorem fdn_fs_post_hidden_filter_inverted :
    forwardKept false [(⟨"/d".data, ".hidden".data⟩, none)]
      = [(⟨"/d".data, ".hidden".data⟩, none)] ∧
    forwardKept true [(⟨"/d".data, ".hidden".data⟩, none)] = [] ∧
    reverseKept false [⟨"/d".data, ".hidden".data⟩] = [] ∧
    reverseKept true [⟨"/d".data, ".hidden".data⟩] = [⟨"/d".data, ".hidden".data⟩] ∧
    fdnFsPost tCrypto [['_']] [['h']] [] 2 2 false
      [⟨"/d".data, ".hidden".data⟩] [] true false false []
      = (false, [⟨0, "._idden".data, ".hidden".data, 1⟩]) ∧
    fdnFsPost tCrypto [['_']] [['h']] [] 2 2 false
      [⟨"/d".data, ".hidden".data⟩] [] true true false [] = (true, []) := by
  decide

/-! ### Claim C8 -/

/-- C8.  The claim states the name computation of `fdn_f` is
deterministic and in particular independent of the iteration order of
the rule replacement maps.  The maps are Rust `HashMap`s, whose
iteration order is arbitrary (and randomized across runs); the
substitution passes apply the rules sequentially in that order, so
different orders give different outputs.  With ToSepWords `{"ab","bc"}`
and separator `"_"` on the stem `"abc"`, the order `["ab","bc"]` yields
`"c"` while `["bc","ab"]` yields `"a"`. -/
theorem fdn_f_depends_on_rule_iteration_order :
    fdnFName [['_']] ["ab".data, "bc".data] [] 3 3 false "abc".data = some "c".data ∧
    fdnFName [['_']] ["bc".data, "ab".data] [] 3 3 false "abc".data = some "a".data ∧
    ("c".data : Name) ≠ "a".data := by
  decide

/-! ### Claim C9 -/

/-- C9.  Ledger write discipline of `fdn_f` (lines 350-357): a `Record`
is inserted if and only if the computed target bare name differs from the
original and apply-mode (`in_place`) is on; no record is written during a
dry run or when the name is unchanged, and when a record is written it is
exactly the `Record::new` entry appended to the ledger. -/
theorem fdn_f_record_write_iff :
    ∀ (c : Crypto) (seps toSep : List Name) (terms : List (Name × Name))
      (f1 f2 : Nat) (db : DirBase) (target : Option Name) (isFile inPlace : Bool)
      (led : List Record) (out : Name) (led' : List Record),
    fdnF c seps toSep terms f1 f2 db target isFile inPlace led = some (out, led') →
    ((led' ≠ led ↔ (out ≠ db.base ∧ inPlace = true)) ∧
     (inPlace = false → led' = led) ∧
     (out = db.base → led' = led) ∧
     (∀ rd, recordOf c db.base out = some rd → out ≠ db.base → inPlace = true →
        led' = led ++ [rd])) := by
  intro c seps toSep terms f1 f2 db target isFile inPlace led out led' h
  unfold fdnF at h
  cases hcomp : (match target with
      | some tn => some tn
      | none => fdnFName seps toSep terms f1 f2 isFile db.base) with
  | none =>
    rw [hcomp] at h
    exact absurd h (by simp)
  | some baseName =>
    rw [hcomp] at h
    dsimp only at h
    by_cases hcond : baseName ≠ db.base ∧ inPlace = true
    · rw [if_pos hcond] at h
      cases hrd : recordOf c db.base baseName with
      | none =>
        rw [hrd] at h
        exact absurd h (by simp)
      | some rd =>
        rw [hrd] at h
        simp only [Option.map_some', Option.some.injEq, Prod.mk.injEq] at h
        obtain ⟨hout, hled⟩ := h
        subst hout
        subst hled
        refine ⟨?_, ?_, ?_, ?_⟩
        · constructor
          · intro _
            exact hcond
          · intro _
            intro heq
            have := congrArg List.length heq
            simp at this
        · intro hip
          rw [hip] at hcond
          exact absurd hcond.2 (by simp)
        · intro hsame
          exact absurd hsame hcond.1
        · intro rd' hrd' hne hip
          rw [hrd] at hrd'
          simp only [Option.some.injEq] at hrd'
          rw [hrd']
    · rw [if_neg hcond] at h
      simp only [Option.some.injEq, Prod.mk.injEq] at h
      obtain ⟨hout, hled⟩ := h
      subst hout
      subst hled
      refine ⟨?_, fun _ => rfl, fun _ => rfl, ?_⟩
      · constructor
        · intro hne
          exact absurd rfl hne
        · intro hc
          exact absurd hc hcond
      · intro rd hrd hne hip
        exact absurd ⟨hne, hip⟩ hcond

/-- C9 witness: forward rename of the directory name `My File` with
separator `_` and ToSepWord `" "`, apply-mode on: the computed name
`My_File` differs, and exactly the new record is appended. -/
theorem fdn_f_record_write_iff_witness :
    (([⟨0, "My_File".data, "My File".data, 1⟩] : List Record) ≠ [] ↔
      ("My_File".data ≠ "My File".data ∧ true = true)) :=
  (fdn_f_record_write_iff tCrypto [['_']] [[' ']] [] 2 2
    ⟨"/d".data, "My File".data⟩ none false true [] "My_File".data
    [⟨0, "My_File".data, "My File".data, 1⟩] (by decide)).1

/-! ### Claim C6 -/

/-- C6 counterexample: a matched record whose `count` is `2` is left in
the ledger unchanged by a successful apply-mode reversal — it is neither
deleted nor decremented (the code at lines 425-427 only has the
`count == 1` deletion branch), contradicting the claim that a record
with `count > 1` is decremented. -/
theorem fdn_rf_no_decrement :
    fdnRf tCrypto [⟨5, "new".data, "old".data, 2⟩] ⟨"/d".data, "new".data⟩ true
      = .ok (some "old".data, [⟨5, "new".data, "old".data, 2⟩]) ∧
    ([⟨5, "new".data, "old".data, 2⟩] : List Record)
      ≠ [⟨5, "new".data, "old".data, 1⟩] := by
  constructor
  · rfl
  · decide

/-- C6 (amended).  On a successful apply-mode reversal, the matched
record is deleted (by id) when its `count` equals one, and is left
entirely unchanged otherwise — there is no decrement branch. -/
theorem fdn_rf_count_branch :
    ∀ (c : Crypto) (rds : List Record) (db : DirBase) (rd : Record) (prev : Name),
    fdnRfLookup c rds db.base = some rd →
    decryptChain c rd.encrypted_pre_name db.base = some prev →
    fdnRf c rds db true
      = .ok (some prev, if rd.count = 1 then rds.filter (fun r => r.id ≠ rd.id) else rds) := by
  intro c rds db rd prev hlook hdec
  by_cases h1 : rd.count = 1 <;>
    simp [fdnRf, hlook, hdec, h1]

/-- C6 witness: with `count = 1` the matched record is deleted. -/
theorem fdn_rf_count_branch_witness :
    fdnRf tCrypto [⟨7, "n".data, "o".data, 1⟩] ⟨"/d".data, "n".data⟩ true
      = .ok (some "o".data, []) :=
  (fdn_rf_count_branch tCrypto [⟨7, "n".data, "o".data, 1⟩] ⟨"/d".data, "n".data⟩
    ⟨7, "n".data, "o".data, 1⟩ "o".data (by decide) (by decide)).trans (by rfl)

/-! ### Claim C1 -/

/-- C1.  Round trip of the history ledger: if a forward rename
`old -> new` was recorded (a record with fingerprint `hashed_name(new)`,
ciphertext `encrypted(old, new)` and `count = 1` is in the ledger, and
every ledger record fingerprinting `new` carries that ciphertext), and
the crypto collaborators satisfy the spec round-trip contract, then
`fdn_rf` on a file whose current bare name is `new` returns `Some(old)`. -/
theorem fdn_rf_round_trip :
    ∀ (c : Crypto), RoundTrip c →
    ∀ (old new cip : Name) (i : Int) (rds : List Record) (dir : Name),
    c.encrypted old new = some cip →
    (⟨i, c.hashedName new, cip, 1⟩ : Record) ∈ rds →
    (∀ r ∈ rds, r.hashed_current_name = c.hashedName new → r.encrypted_pre_name = cip) →
    fdnRf c rds ⟨dir, new⟩ false = .ok (some old, rds) := by
  intro c hrt old new cip i rds dir henc hmem huniq
  have hex : ∃ r, r ∈ rds.reverse ∧
      (decide (r.hashed_current_name = c.hashedName new)) = true :=
    ⟨⟨i, c.hashedName new, cip, 1⟩, List.mem_reverse.mpr hmem, by simp⟩
  cases hfind : rds.reverse.find? (fun rd => rd.hashed_current_name = c.hashedName new) with
  | none =>
    have := List.find?_isSome.mpr hex
    rw [hfind] at this
    simp at this
  | some rd =>
    have hpred : rd.hashed_current_name = c.hashedName new := by
      have := List.find?_some hfind
      simpa using this
    have hmem' : rd ∈ rds := List.mem_reverse.mp (List.mem_of_find?_eq_some hfind)
    have hcip : rd.encrypted_pre_name = cip := huniq rd hmem' hpred
    have hdec : decryptChain c rd.encrypted_pre_name new = some old := by
      rw [hcip]
      exact hrt old new cip henc
    simp [fdnRf, fdnRfLookup, hfind, hdec]

/-- C1 witness: concrete collaborators, ledger with the single record of
the rename `old -> new`; reversal lookup on `new` recovers `old`. -/
theorem fdn_rf_round_trip_witness :
    fdnRf tCrypto [⟨3, "new".data, "old".data, 1⟩] ⟨"/d".data, "new".data⟩ false
      = .ok (some "old".data, [⟨3, "new".data, "old".data, 1⟩]) :=
  fdn_rf_round_trip tCrypto tCrypto_roundTrip "old".data "new".data "old".data 3
    [⟨3, "new".data, "old".data, 1⟩] "/d".data (by decide) (by decide) (by decide)

/-! ### Claim C10 -/

theorem lastDotIdx_eq_none_of_not_mem {name : Name} (h : '.' ∉ name) :
    lastDotIdx name = none := by
  unfold lastDotIdx
  have : name.reverse.findIdx? (fun c => c = '.') = none := by
    rw [List.findIdx?_eq_none_iff]
    intro x hx
    have : x ∈ name := List.mem_reverse.mp hx
    simp only [decide_eq_false_iff_not]
    intro hxdot
    exact h (hxdot ▸ this)
  rw [this]

theorem forwardKept_flag_false (l : List (DirBase × Option Name)) :
    forwardKept false l = l := by
  unfold forwardKept
  apply List.filter_eq_self.mpr
  intro e _
  simp

/-- C10.  For every non-empty bare name without a dot, `stem_ext` errors
(rather than producing an empty extension), so `fname_compare` errors and
the `fdn_fs_post` batch returns an error for that entry — even though
`fdn_f` already succeeded, and its ledger insertion (in apply-mode, after
the rename) persists. -/
theorem stem_ext_rejects_extensionless :
    ∀ (name : Name), '.' ∉ name → name ≠ [] →
    (stemExt name = none ∧
     (∀ edit mode, fnameCompare name edit mode = none) ∧
     (∀ (c : Crypto) (seps toSep : List Name) (terms : List (Name × Name))
        (f1 f2 : Nat) (isFile inPlace align : Bool) (dir : Name)
        (led led' : List Record) (out : Name),
      fdnF c seps toSep terms f1 f2 ⟨dir, name⟩ none isFile inPlace led = some (out, led') →
      fdnFsPost c seps toSep terms f1 f2 isFile [⟨dir, name⟩] [] inPlace false align led
        = (false, led'))) := by
  intro name hdot hne
  have hbad : ¬(name = [] ∨ name = ['.'] ∨ name = ['.', '.']) := by
    rintro (h | h | h)
    · exact hne h
    · exact hdot (h ▸ by simp)
    · exact hdot (h ▸ by simp)
  have hext : extensionOf name = none := by
    unfold extensionOf
    rw [if_neg hbad, lastDotIdx_eq_none_of_not_mem hdot]
  have hse : stemExt name = none := by
    unfold stemExt
    rw [hext]
    cases fileStem name <;> rfl
  refine ⟨hse, ?_, ?_⟩
  · intro edit mode
    unfold fnameCompare
    rw [hse]
  · intro c seps toSep terms f1 f2 isFile inPlace align dir led led' out hf
    unfold fdnFsPost
    rw [if_pos rfl]
    simp only [List.map_cons, List.map_nil, forwardKept_flag_false]
    unfold fsGo
    rw [hf]
    have hfc : fnameCompare name out (if align then ['a'] else []) = none := by
      unfold fnameCompare
      rw [hse]
    dsimp only
    rw [hfc]

/-- C10 witness: the dot-free directory name `foo` is transformed to `f`
(ToSepWord `o`), the record is inserted in apply-mode, and the batch
nevertheless errors on the diff-presentation step. -/
theorem stem_ext_rejects_extensionless_witness :
    stemExt "foo".data = none ∧
    fdnFsPost tCrypto [['_']] [['o']] [] 2 2 false [⟨"/d".data, "foo".data⟩] []
      true false false [] = (false, [⟨0, "f".data, "foo".data, 1⟩]) :=
  ⟨(stem_ext_rejects_extensionless "foo".data (by decide) (by decide)).1,
   (stem_ext_rejects_extensionless "foo".data (by decide) (by decide)).2.2
     tCrypto [['_']] [['o']] [] 2 2 false true false "/d".data []
     [⟨0, "f".data, "foo".data, 1⟩] "f".data (by decide)⟩

/-! ### Claim C7 -/

theorem replaceGo_skip (p : Char) (ps rep : List Char) :
    ∀ (s : List Char) (skip : Nat),
    replaceGo p ps rep s skip = replaceGo p ps rep (s.drop skip) 0 := by
  intro s
  induction s with
  | nil => intro skip; simp [replaceGo]
  | cons c rest ih =>
    intro skip
    cases skip with
    | zero => rfl
    | succ k =>
      show replaceGo p ps rep rest k = _
      rw [ih k]
      rfl

theorem replaceGo_length_ge (s : List Char) :
    s.length ≤ (replaceGo 'a' [] ['a', 'a'] s 0).length := by
  induction s with
  | nil => simp [replaceGo]
  | cons c rest ih =>
    show (c :: rest).length ≤ (replaceGo 'a' [] ['a', 'a'] (c :: rest) 0).length
    unfold replaceGo
    split
    · simp only [List.length_append, List.length_cons, List.length_nil]
      omega
    · simp only [List.length_cons]
      omega

theorem replaceGo_length_lt {s : List Char} (h : 'a' ∈ s) :
    s.length < (replaceGo 'a' [] ['a', 'a'] s 0).length := by
  induction s with
  | nil => cases h
  | cons c rest ih =>
    show (c :: rest).length < (replaceGo 'a' [] ['a', 'a'] (c :: rest) 0).length
    unfold replaceGo
    split
    · have := replaceGo_length_ge rest
      simp only [List.length_append, List.length_cons, List.length_nil]
      omega
    · rename_i hpre
      have hca : c ≠ 'a' := by
        intro hc
        subst hc
        simp [List.isPrefixOf] at hpre
      have hmem : 'a' ∈ rest := by
        cases List.mem_cons.mp h with
        | inl h1 => exact absurd h1.symm hca
        | inr h2 => exact h2
      have := ih hmem
      simp only [List.length_cons]
      omega

theorem replaceGo_mem {s : List Char} (h : 'a' ∈ s) :
    'a' ∈ replaceGo 'a' [] ['a', 'a'] s 0 := by
  induction s with
  | nil => cases h
  | cons c rest ih =>
    show 'a' ∈ replaceGo 'a' [] ['a', 'a'] (c :: rest) 0
    unfold replaceGo
    split
    · simp
    · rename_i hpre
      have hca : c ≠ 'a' := by
        intro hc
        subst hc
        simp [List.isPrefixOf] at hpre
      have hmem : 'a' ∈ rest := by
        cases List.mem_cons.mp h with
        | inl h1 => exact absurd h1.symm hca
        | inr h2 => exact h2
      exact List.mem_cons_of_mem c (ih hmem)

/-- C7 counterexample: the term-word rule `"a" -> "aa"` does not map a
string to itself, yet its substitution loop never reaches a fixed point
from the stem `"a"` — the Rust `loop` in `fdn_f` runs forever. -/
theorem substitution_loop_diverges :
    ¬ LoopTerminates (replacePass [(['a'], ['a', 'a'])]) ['a'] := by
  rintro ⟨n, hn⟩
  have hpass : ∀ t : Name, replacePass [(['a'], ['a', 'a'])] t
      = replaceGo 'a' [] ['a', 'a'] t 0 := fun t => rfl
  have hmem : ∀ m : Nat, 'a' ∈ (replacePass [(['a'], ['a', 'a'])])^[m] ['a'] := by
    intro m
    induction m with
    | zero => simp
    | succ k ihk =>
      rw [Function.iterate_succ_apply', hpass]
      exact replaceGo_mem ihk
  have hlt := replaceGo_length_lt (hmem n)
  rw [← hpass, hn] at hlt
  omega

theorem replaceGo_length_le (p : Char) (ps rep : List Char)
    (hrep : rep.length ≤ ps.length + 1) :
    ∀ (n : Nat) (s : List Char), s.length ≤ n →
    (replaceGo p ps rep s 0).length ≤ s.length := by
  intro n
  induction n with
  | zero =>
    intro s hs
    have : s = [] := List.length_eq_zero.mp (Nat.le_zero.mp hs)
    subst this
    simp [replaceGo]
  | succ m ih =>
    intro s hs
    cases s with
    | nil => simp [replaceGo]
    | cons c rest =>
      show (replaceGo p ps rep (c :: rest) 0).length ≤ (c :: rest).length
      unfold replaceGo
      split
      · rename_i hpre
        have hlen : ps.length ≤ rest.length := by
          have := (List.isPrefixOf_iff_prefix.mp hpre).length_le
          simp only [List.length_cons] at this
          omega
        rw [replaceGo_skip]
        have hdl : (rest.drop ps.length).length = rest.length - ps.length := by
          simp
        have hrec := ih (rest.drop ps.length)
          (by rw [hdl]; simp only [List.length_cons] at hs; omega)
        simp only [List.length_append, List.length_cons]
        rw [hdl] at hrec
        omega
      · have hrec := ih rest (by simp only [List.length_cons] at hs; omega)
        simp only [List.length_cons]
        omega

theorem replaceGo_eq_or_lt (p : Char) (ps rep : List Char)
    (hrep : rep.length < ps.length + 1) :
    ∀ (n : Nat) (s : List Char), s.length ≤ n →
    replaceGo p ps rep s 0 = s ∨ (replaceGo p ps rep s 0).length < s.length := by
  intro n
  induction n with
  | zero =>
    intro s hs
    have : s = [] := List.length_eq_zero.mp (Nat.le_zero.mp hs)
    subst this
    left
    simp [replaceGo]
  | succ m ih =>
    intro s hs
    cases s with
    | nil => left; simp [replaceGo]
    | cons c rest =>
      show replaceGo p ps rep (c :: rest) 0 = c :: rest ∨ _
      unfold replaceGo
      split
      · rename_i hpre
        right
        have hlen : ps.length ≤ rest.length := by
          have := (List.isPrefixOf_iff_prefix.mp hpre).length_le
          simp only [List.length_cons] at this
          omega
        rw [replaceGo_skip]
        have hdl : (rest.drop ps.length).length = rest.length - ps.length := by
          simp
        have hrec := replaceGo_length_le p ps rep (Nat.le_of_lt hrep) m (rest.drop ps.length)
          (by rw [hdl]; simp only [List.length_cons] at hs; omega)
        simp only [List.length_append, List.length_cons]
        rw [hdl] at hrec
        omega
      · have hrec := ih rest (by simp only [List.length_cons] at hs; omega)
        cases hrec with
        | inl heq => left; rw [heq]
        | inr hlt =>
          right
          simp only [List.length_cons]
          omega

theorem replaceGo_self (p : Char) (ps : List Char) :
    ∀ (n : Nat) (s : List Char), s.length ≤ n → replaceGo p ps (p :: ps) s 0 = s := by
  intro n
  induction n with
  | zero =>
    intro s hs
    have : s = [] := List.length_eq_zero.mp (Nat.le_zero.mp hs)
    subst this
    simp [replaceGo]
  | succ m ih =>
    intro s hs
    cases s with
    | nil => simp [replaceGo]
    | cons c rest =>
      unfold replaceGo
      split
      · rename_i hpre
        obtain ⟨t, ht⟩ := List.isPrefixOf_iff_prefix.mp hpre
        have hrest : rest = ps ++ t := by
          have h2 := ht
          simp only [List.cons_append, List.cons.injEq] at h2
          exact h2.2.symm
        have hdrop : rest.drop ps.length = t := by
          rw [hrest, List.drop_left]
        rw [replaceGo_skip, hdrop]
        have htlen : t.length ≤ m := by
          simp only [List.length_cons] at hs
          rw [hrest] at hs
          simp only [List.length_append] at hs
          omega
        rw [ih t htlen, ← ht]
      · have hrl : rest.length ≤ m := by
          simp only [List.length_cons] at hs
          omega
        rw [ih rest hrl]

theorem strReplace_self : ∀ (s pat : List Char), strReplace s pat pat = s := by
  intro s pat
  cases pat with
  | nil =>
    show [] ++ s.foldr (fun c acc => c :: ([] ++ acc)) [] = s
    simp only [List.nil_append]
    induction s with
    | nil => rfl
    | cons c rest ih => simp only [List.foldr_cons, List.nil_append, ih]
  | cons p ps =>
    exact replaceGo_self p ps s.length s (Nat.le_refl _)

theorem replacePass_eq_or_lt :
    ∀ (rules : List (Name × Name)),
    (∀ r ∈ rules, r.2.length < r.1.length ∨ r.2 = r.1) →
    ∀ s : Name, replacePass rules s = s ∨ (replacePass rules s).length < s.length := by
  intro rules
  induction rules with
  | nil => intro _ s; left; rfl
  | cons kv rs ih =>
    intro h s
    obtain ⟨k, v⟩ := kv
    have hstep : replacePass ((k, v) :: rs) s = replacePass rs (strReplace s k v) := by
      simp [replacePass]
    have hhead := h (k, v) (List.mem_cons_self _ _)
    have htail : ∀ r ∈ rs, r.2.length < r.1.length ∨ r.2 = r.1 :=
      fun r hr => h r (List.mem_cons_of_mem _ hr)
    rw [hstep]
    cases hhead with
    | inr heq =>
      simp only at heq
      rw [heq, strReplace_self]
      exact ih htail s
    | inl hlt =>
      simp only at hlt
      cases k with
      | nil => simp at hlt
      | cons p ps =>
        have hgo := replaceGo_eq_or_lt p ps v (by simpa using hlt) s.length s (Nat.le_refl _)
        have hsr : strReplace s (p :: ps) v = replaceGo p ps v s 0 := rfl
        rw [hsr]
        cases hgo with
        | inl heq =>
          rw [heq]
          exact ih htail s
        | inr hlt2 =>
          cases ih htail (replaceGo p ps v s 0) with
          | inl heq2 => right; rw [heq2]; exact hlt2
          | inr hlt3 => right; omega

/-- C7 (amended).  The substitution loops of `fdn_f` terminate for every
input stem whenever every rule's replacement is strictly shorter than its
pattern or equal to it (for the to-sep loop: the separator is shorter
than each ToSepWord, or equal to it; for the term loop: each value is
shorter than its key, or equal to it).  The original claim's hypothesis —
merely that no rule maps a string to itself — is not sufficient. -/
theorem substitution_loops_terminate :
    ∀ (rules : List (Name × Name)) (s : Name),
    (∀ r ∈ rules, r.2.length < r.1.length ∨ r.2 = r.1) →
    LoopTerminates (replacePass rules) s := by
  intro rules s hrules
  have hshrink := replacePass_eq_or_lt rules hrules
  have aux : ∀ (n : Nat) (t : Name), t.length ≤ n →
      LoopTerminates (replacePass rules) t := by
    intro n
    induction n with
    | zero =>
      intro t ht
      have : t = [] := List.length_eq_zero.mp (Nat.le_zero.mp ht)
      subst this
      cases hshrink [] with
      | inl heq => exact ⟨0, by simpa using heq⟩
      | inr hlt => simp at hlt
    | succ m ih =>
      intro t ht
      cases hshrink t with
      | inl heq => exact ⟨0, by simpa using heq⟩
      | inr hlt =>
        obtain ⟨j, hj⟩ := ih (replacePass rules t) (by omega)
        exact ⟨j + 1, by rw [Function.iterate_succ_apply]; exact hj⟩
  exact aux s.length s (Nat.le_refl _)

/-- C7 witness: ToSepWord `"ab"` with separator `"_"` (strictly
shortening), starting stem `"abab"`. -/
theorem substitution_loops_terminate_witness :
    LoopTerminates (replacePass [("ab".data, "_".data)]) "abab".data :=
  substitution_loops_terminate [("ab".data, "_".data)] "abab".data (by decide)

/-! ### Claim C5 -/

/-- One unfolding step of the reversal loop. -/
theorem rfsChain_succ (c : Crypto) (ip ch al : Bool) (n : Nat) (rds : List Record)
    (db : DirBase) :
    rfsChain c ip ch al (n + 1) rds db
      = (match fdnRf c rds db ip with
        | .error _ => (false, [], rds)
        | .ok (none, rds') => (true, [], rds')
        | .ok (some rfBase, rds') =>
          match fnameCompare db.base rfBase (if al then ['a'] else []) with
          | none => (false, [rfBase], rds')
          | some _ =>
            if ch then
              match rfsChain c ip ch al n rds' ⟨db.dir, rfBase⟩ with
              | (ok, l, r) => (ok, rfBase :: l, r)
            else
              (true, [rfBase], rds')) := rfl

theorem fnameCompare_isSome {a b : Name} (ha : stemExt a ≠ none)
    (hb : stemExt b ≠ none) (mode : Name) :
    ∃ v, fnameCompare a b mode = some v := by
  obtain ⟨pa, hpa⟩ := Option.ne_none_iff_exists'.mp ha
  obtain ⟨pb, hpb⟩ := Option.ne_none_iff_exists'.mp hb
  obtain ⟨as, ae⟩ := pa
  obtain ⟨bs, be⟩ := pb
  unfold fnameCompare
  rw [hpa, hpb]
  exact ⟨_, rfl⟩

/-- C5 counterexample: for the recorded chain `a -> b -> c` of bare
names without extensions, chain-reversal from `c` restores `b`, then the
diff-presentation step (`fname_compare`, which rejects extension-less
names) errors and aborts — `a` is never restored, contradicting the
claim that the chain is walked back to `a` and then terminates on a
ledger miss. -/
theorem chain_reversal_aborts_without_extension :
    rfsChain tCrypto true true false 5
      [⟨1, "b".data, "a".data, 1⟩, ⟨2, "c".data, "b".data, 1⟩]
      ⟨"/d".data, "c".data⟩
      = (false, ["b".data], [⟨1, "b".data, "a".data, 1⟩]) := by
  decide

/-- C5 (amended).  For a recorded rename chain `n0 -> n1 -> n2` of the
same file (two ledger records with distinct ids), chain-reversal with
apply-mode from a file currently named `n2` restores `n1`, then `n0`,
and then terminates because the next ledger lookup misses — provided
each name in the chain splits into stem and extension (otherwise the
diff-presentation step aborts the walk, see the counterexample). -/
theorem chain_reversal_restores_then_none :
    ∀ (c : Crypto), RoundTrip c →
    ∀ (n0 n1 n2 cip1 cip2 : Name) (i1 i2 : Int) (dir : Name) (fuel : Nat),
    c.encrypted n0 n1 = some cip1 →
    c.encrypted n1 n2 = some cip2 →
    i1 ≠ i2 →
    stemExt n0 ≠ none → stemExt n1 ≠ none → stemExt n2 ≠ none →
    rfsChain c true true false (fuel + 3)
      [⟨i1, c.hashedName n1, cip1, 1⟩, ⟨i2, c.hashedName n2, cip2, 1⟩]
      ⟨dir, n2⟩ = (true, [n1, n0], []) := by
  intro c hrt n0 n1 n2 cip1 cip2 i1 i2 dir fuel he1 he2 h12 hs0 hs1 hs2
  have hlook2 : fdnRfLookup c
      [⟨i1, c.hashedName n1, cip1, 1⟩, ⟨i2, c.hashedName n2, cip2, 1⟩] n2
      = some ⟨i2, c.hashedName n2, cip2, 1⟩ := by
    have hrev : ([⟨i1, c.hashedName n1, cip1, 1⟩,
        ⟨i2, c.hashedName n2, cip2, 1⟩] : List Record).reverse
        = [⟨i2, c.hashedName n2, cip2, 1⟩, ⟨i1, c.hashedName n1, cip1, 1⟩] := by
      simp
    unfold fdnRfLookup
    rw [hrev]
    exact List.find?_cons_of_pos _ (by simp)
  have hdec2 : decryptChain c cip2 n2 = some n1 := hrt n1 n2 cip2 he2
  have hrf2 : fdnRf c
      [⟨i1, c.hashedName n1, cip1, 1⟩, ⟨i2, c.hashedName n2, cip2, 1⟩]
      ⟨dir, n2⟩ true
      = .ok (some n1, [⟨i1, c.hashedName n1, cip1, 1⟩]) := by
    unfold fdnRf
    rw [hlook2]
    dsimp only
    rw [hdec2]
    dsimp only
    have hfil : ([⟨i1, c.hashedName n1, cip1, 1⟩,
        ⟨i2, c.hashedName n2, cip2, 1⟩] : List Record).filter
          (fun r => r.id ≠ (⟨i2, c.hashedName n2, cip2, 1⟩ : Record).id)
        = [⟨i1, c.hashedName n1, cip1, 1⟩] := by
      simp [List.filter, h12]
    split
    · split
      · rw [hfil]
      · rename_i hcc
        exact absurd rfl hcc
    · rename_i hcc
      exact absurd rfl hcc
  have hlook1 : fdnRfLookup c [⟨i1, c.hashedName n1, cip1, 1⟩] n1
      = some ⟨i1, c.hashedName n1, cip1, 1⟩ := by
    unfold fdnRfLookup
    simp only [List.reverse_cons, List.reverse_nil, List.nil_append]
    exact List.find?_cons_of_pos _ (by simp)
  have hdec1 : decryptChain c cip1 n1 = some n0 := hrt n0 n1 cip1 he1
  have hrf1 : fdnRf c [⟨i1, c.hashedName n1, cip1, 1⟩] ⟨dir, n1⟩ true
      = .ok (some n0, []) := by
    unfold fdnRf
    rw [hlook1]
    dsimp only
    rw [hdec1]
    dsimp only
    have hfil : ([⟨i1, c.hashedName n1, cip1, 1⟩] : List Record).filter
          (fun r => r.id ≠ (⟨i1, c.hashedName n1, cip1, 1⟩ : Record).id)
        = [] := by
      simp [List.filter]
    split
    · split
      · rw [hfil]
      · rename_i hcc
        exact absurd rfl hcc
    · rename_i hcc
      exact absurd rfl hcc
  have hrf0 : fdnRf c [] ⟨dir, n0⟩ true = .ok (none, []) := rfl
  have h0 : rfsChain c true true false (fuel + 1) [] ⟨dir, n0⟩ = (true, [], []) := by
    rw [rfsChain_succ, hrf0]
  obtain ⟨v10, hv10⟩ := fnameCompare_isSome hs1 hs0 []
  have h1 : rfsChain c true true false (fuel + 2) [⟨i1, c.hashedName n1, cip1, 1⟩]
      ⟨dir, n1⟩ = (true, [n0], []) := by
    rw [show fuel + 2 = (fuel + 1) + 1 from rfl, rfsChain_succ, hrf1]
    simp [hv10, h0]
  obtain ⟨v21, hv21⟩ := fnameCompare_isSome hs2 hs1 []
  rw [show fuel + 3 = (fuel + 2) + 1 from rfl, rfsChain_succ, hrf2]
  simp [hv21, h1]

/-- C5 witness: concrete chain `a.x -> b.x -> c.x` with the concrete
collaborators; both restorations happen, then the walk stops. -/
theorem chain_reversal_restores_then_none_witness :
    rfsChain tCrypto true true false 3
      [⟨1, "b.x".data, "a.x".data, 1⟩, ⟨2, "c.x".data, "b.x".data, 1⟩]
      ⟨"/d".data, "c.x".data⟩ = (true, ["b.x".data, "a.x".data], []) :=
  chain_reversal_restores_then_none tCrypto tCrypto_roundTrip
    "a.x".data "b.x".data "c.x".data "a.x".data "b.x".data 1 2 "/d".data 0
    (by decide) (by decide) (by decide) (by decide) (by decide) (by decide)

/-! ### Claim C3 -/

theorem charToNat_inj {a b : Char} (h : a.toNat = b.toNat) : a = b := by
  have := congrArg Char.ofNat h
  rwa [Char.ofNat_toNat, Char.ofNat_toNat] at this

theorem natCompare_swap (a b : Nat) : compare b a = (compare a b).swap := by
  rcases Nat.lt_trichotomy a b with h | h | h
  · rw [Nat.compare_eq_lt.mpr h, Nat.compare_eq_gt.mpr h]
    rfl
  · subst h
    rw [Nat.compare_eq_eq.mpr rfl]
    rfl
  · rw [Nat.compare_eq_gt.mpr h, Nat.compare_eq_lt.mpr h]
    rfl

theorem lexCmp_eq_iff : ∀ a b : Name, lexCmp a b = .eq ↔ a = b := by
  intro a
  induction a with
  | nil =>
    intro b
    cases b with
    | nil => simp [lexCmp]
    | cons y ys => simp [lexCmp]
  | cons x xs ih =>
    intro b
    cases b with
    | nil => simp [lexCmp]
    | cons y ys =>
      unfold lexCmp
      cases hc : compare x.toNat y.toNat with
      | eq =>
        have hxy : x = y := charToNat_inj (Nat.compare_eq_eq.mp hc)
        subst hxy
        simpa using ih ys
      | lt =>
        have hne : x ≠ y := by
          intro h
          subst h
          rw [Nat.compare_eq_eq.mpr rfl] at hc
          cases hc
        simp [hne]
      | gt =>
        have hne : x ≠ y := by
          intro h
          subst h
          rw [Nat.compare_eq_eq.mpr rfl] at hc
          cases hc
        simp [hne]

theorem lexCmp_swap : ∀ a b : Name, lexCmp b a = (lexCmp a b).swap := by
  intro a
  induction a with
  | nil =>
    intro b
    cases b <;> rfl
  | cons x xs ih =>
    intro b
    cases b with
    | nil => rfl
    | cons y ys =>
      unfold lexCmp
      rw [natCompare_swap x.toNat y.toNat]
      cases hc : compare x.toNat y.toNat with
      | eq => exact ih ys
      | lt => rfl
      | gt => rfl

theorem lexCmp_trans_lt :
    ∀ a b c : Name, lexCmp a b = .lt → lexCmp b c = .lt → lexCmp a c = .lt := by
  intro a
  induction a with
  | nil =>
    intro b c hab hbc
    cases c with
    | nil =>
      cases b with
      | nil => cases hab
      | cons y ys => cases hbc
    | cons z zs => rfl
  | cons x xs ih =>
    intro b c hab hbc
    cases b with
    | nil => cases hab
    | cons y ys =>
      cases c with
      | nil => cases hbc
      | cons z zs =>
        unfold lexCmp at hab hbc ⊢
        cases hxy : compare x.toNat y.toNat with
        | gt => rw [hxy] at hab; cases hab
        | lt =>
          have hxyn := Nat.compare_eq_lt.mp hxy
          cases hyz : compare y.toNat z.toNat with
          | gt => rw [hyz] at hbc; cases hbc
          | lt =>
            have hyzn := Nat.compare_eq_lt.mp hyz
            rw [Nat.compare_eq_lt.mpr (Nat.lt_trans hxyn hyzn)]
          | eq =>
            have hyzn := Nat.compare_eq_eq.mp hyz
            rw [Nat.compare_eq_lt.mpr (hyzn ▸ hxyn)]
        | eq =>
          have hxyn := Nat.compare_eq_eq.mp hxy
          rw [hxy] at hab
          cases hyz : compare y.toNat z.toNat with
          | gt => rw [hyz] at hbc; cases hbc
          | lt =>
            have hyzn := Nat.compare_eq_lt.mp hyz
            rw [Nat.compare_eq_lt.mpr (hxyn ▸ hyzn)]
          | eq =>
            have hyzn := Nat.compare_eq_eq.mp hyz
            rw [hyz] at hbc
            rw [Nat.compare_eq_eq.mpr (hxyn.trans hyzn)]
            exact ih ys zs hab hbc

theorem lexCmp_append_lt : ∀ (a t : Name), t ≠ [] → lexCmp a (a ++ t) = .lt := by
  intro a
  induction a with
  | nil =>
    intro t ht
    cases t with
    | nil => exact absurd rfl ht
    | cons x xs => rfl
  | cons c as ih =>
    intro t ht
    show lexCmp (c :: as) (c :: (as ++ t)) = .lt
    unfold lexCmp
    rw [Nat.compare_eq_eq.mpr rfl]
    exact ih t ht

theorem dirCmp_eq_swap (a b : Name) : dirCmp a b = (lexCmp a b).swap := by
  unfold dirCmp
  cases h : lexCmp a b with
  | eq =>
    have : a = b := (lexCmp_eq_iff a b).mp h
    subst this
    rw [Nat.compare_eq_eq.mpr rfl]
    rfl
  | lt => rfl
  | gt => rfl

theorem dirLe_trans :
    ∀ a b c : Name, dirLe a b = true → dirLe b c = true → dirLe a c = true := by
  intro a b c hab hbc
  simp only [dirLe, dirCmp_eq_swap, ne_eq, decide_eq_true_eq] at hab hbc ⊢
  have hab' : lexCmp a b ≠ .lt := by
    intro h
    rw [h] at hab
    exact hab rfl
  have hbc' : lexCmp b c ≠ .lt := by
    intro h
    rw [h] at hbc
    exact hbc rfl
  intro hswap
  have hac : lexCmp a c = .lt := by
    cases h : lexCmp a c with
    | lt => rfl
    | eq => rw [h] at hswap; cases hswap
    | gt => rw [h] at hswap; cases hswap
  cases hup : lexCmp a b with
  | lt => exact hab' hup
  | eq =>
    have : a = b := (lexCmp_eq_iff a b).mp hup
    subst this
    exact hbc' hac
  | gt =>
    have hba : lexCmp b a = .lt := by
      rw [lexCmp_swap a b, hup]
      rfl
    exact hbc' (lexCmp_trans_lt b a c hba hac)

theorem dirLe_total : ∀ a b : Name, (dirLe a b || dirLe b a) = true := by
  intro a b
  simp only [dirLe, dirCmp_eq_swap, ne_eq, Bool.or_eq_true, decide_eq_true_eq]
  by_cases h : (lexCmp a b).swap = Ordering.gt
  · right
    have hlt : lexCmp a b = .lt := by
      cases hc : lexCmp a b with
      | lt => rfl
      | eq => rw [hc] at h; cases h
      | gt => rw [hc] at h; cases h
    rw [lexCmp_swap a b, hlt]
    simp
  · left
    exact h

unseal List.merge List.mergeSort in
theorem directoriesModel_concrete_batch :
    directoriesModel ["/r/a/b".data, "/r/a".data] [] = ["/r/a/b".data, "/r/a".data] := by
  decide

/-- C3.  The `directories` output is ordered so that every strict
descendant (any strict string-extension, in particular a child path)
appears before its ancestor, and on the batch `["/r/a/b", "/r/a"]` the
visit order is `["/r/a/b", "/r/a"]` (child before parent). -/
theorem directories_child_before_parent :
    (∀ (paths excludes : List Name) (i j : Nat)
       (hi : i < (directoriesModel paths excludes).length)
       (hj : j < (directoriesModel paths excludes).length) (t : Name),
       t ≠ [] →
       (directoriesModel paths excludes).get ⟨j, hj⟩
         = (directoriesModel paths excludes).get ⟨i, hi⟩ ++ t →
       j < i) ∧
    directoriesModel ["/r/a/b".data, "/r/a".data] [] = ["/r/a/b".data, "/r/a".data] := by
  constructor
  · intro paths excludes i j hi hj t ht heq
    have hsorted : List.Pairwise (fun a b => dirLe a b = true)
        (directoriesModel paths excludes) := by
      unfold directoriesModel
      exact List.sorted_mergeSort dirLe_trans dirLe_total _
    by_contra hji
    have hij : i ≤ j := Nat.le_of_not_lt hji
    rcases Nat.eq_or_lt_of_le hij with hij' | hlt
    · subst hij'
      have hgg : (directoriesModel paths excludes).get ⟨i, hj⟩
          = (directoriesModel paths excludes).get ⟨i, hi⟩ := rfl
      rw [hgg] at heq
      have hlen := congrArg List.length heq
      simp only [List.length_append] at hlen
      have ht0 : t.length = 0 := by omega
      exact ht (List.length_eq_zero.mp ht0)
    · have hrel := (List.pairwise_iff_get.mp hsorted) ⟨i, hi⟩ ⟨j, hj⟩ hlt
      rw [heq] at hrel
      simp only [dirLe, dirCmp_eq_swap, ne_eq, decide_eq_true_eq] at hrel
      rw [lexCmp_append_lt _ t ht] at hrel
      exact hrel rfl
  · exact directoriesModel_concrete_batch

unseal List.merge List.mergeSort in
/-- C3 witness: on the sorted batch `["/r/a/b", "/r/a"]`, the descendant
`/r/a/b` (index 0) precedes its ancestor `/r/a` (index 1). -/
theorem directories_child_before_parent_witness :
    ("/b".data : Name) ≠ [] ∧ (0 : Nat) < 1 :=
  ⟨by decide,
   directories_child_before_parent.1 ["/r/a/b".data, "/r/a".data] [] 1 0
     (by decide) (by decide) "/b".data (by decide) (by decide)⟩

/-! ### Claim C4 -/

/-- C4 counterexample: with separator `_`, ToSepWord `x` and TermWord
`b -> x`, the directory name `b` transforms to `x`, but transforming `x`
again yields the empty name (the to-sep pass rewrites it to `_`, which
the strip removes) — the pipeline is not idempotent. -/
theorem fdn_f_not_idempotent :
    fdnFName [['_']] [['x']] [(['b'], ['x'])] 2 2 false ['b'] = some ['x'] ∧
    fdnFName [['_']] [['x']] [(['b'], ['x'])] 2 2 false ['x'] = some [] ∧
    (some ['x'] : Option Name) ≠ some [] := by
  decide

/-- The character map realized by one to-sep pass when the separator and
every ToSepWord are single characters. -/
def mchar (keys : List Char) (c : Char) (x : Char) : Char :=
  if x ∈ keys then c else x

theorem strReplace_single (k v : Char) :
    ∀ s : List Char, strReplace s [k] [v] = s.map (fun x => if x = k then v else x) := by
  intro s
  induction s with
  | nil => rfl
  | cons d rest ih =>
    have ih' : replaceGo k [] [v] rest 0
        = rest.map (fun x => if x = k then v else x) := ih
    show replaceGo k [] [v] (d :: rest) 0 = _
    unfold replaceGo
    by_cases hdk : d = k
    · rw [if_pos (by simp [List.isPrefixOf, hdk])]
      show [v] ++ replaceGo k [] [v] rest 0 = _
      rw [ih']
      simp [hdk]
    · rw [if_neg (by simp only [List.isPrefixOf, Bool.and_true, beq_iff_eq,
        List.isPrefixOf_nil_left, Bool.and_true]; intro h; exact hdk h.symm)]
      show d :: replaceGo k [] [v] rest 0 = _
      rw [ih']
      simp [hdk]

theorem mapFixed {f : Char → Char} :
    ∀ {l : List Char}, (∀ x ∈ l, f x = x) → l.map f = l := by
  intro l
  induction l with
  | nil => intro _; rfl
  | cons x xs ih =>
    intro h
    simp only [List.map_cons, h x (List.mem_cons_self x xs),
      ih (fun y hy => h y (List.mem_cons_of_mem x hy))]

theorem toSepPass_eq_map (c : Char) :
    ∀ (keys : List Char) (s : Name),
    replacePass (keys.map fun k => ([k], [c])) s = s.map (mchar keys c) := by
  intro keys
  induction keys with
  | nil =>
    intro s
    show s = s.map (mchar [] c)
    rw [mapFixed]
    intro x _
    simp [mchar]
  | cons k ks ih =>
    intro s
    show replacePass ((ks.map fun k => ([k], [c]))) (strReplace s [k] [c]) = _
    rw [strReplace_single, ih, List.map_map]
    apply List.map_congr_left
    intro x _
    simp only [Function.comp_apply, mchar, List.mem_cons]
    by_cases hxk : x = k
    · subst hxk
      simp only [if_pos rfl]
      by_cases hck : c ∈ ks
      · simp [hck]
      · simp [hck]
    · simp only [if_neg hxk]
      by_cases hxs : x ∈ ks
      · simp [hxs, hxk]
      · simp [hxs, hxk]

theorem mchar_fix_image (keys : List Char) (c : Char) (x : Char) :
    mchar keys c (mchar keys c x) = mchar keys c x := by
  unfold mchar
  by_cases hx : x ∈ keys
  · simp only [if_pos hx]
    by_cases hc : c ∈ keys <;> simp [hc]
  · simp [hx]

theorem fixLoop_fixed {pass : Name → Name} {s : Name} (h : pass s = s) :
    ∀ n, fixLoop pass n s = s := by
  intro n
  cases n with
  | zero => rfl
  | succ m =>
    unfold fixLoop
    rw [h]
    simp

theorem fixLoop_of_idem {pass : Name → Name} {s : Name}
    (h : pass (pass s) = pass s) :
    ∀ n, fixLoop pass (n + 1) s = pass s := by
  intro n
  unfold fixLoop
  by_cases hfix : pass s = s
  · rw [if_pos hfix, hfix]
  · rw [if_neg hfix]
    exact fixLoop_fixed h n

theorem fixLoop_nil_rules (s : Name) (n : Nat) :
    fixLoop (replacePass []) n s = s :=
  fixLoop_fixed rfl n

/-- Collapse normal form for a single-character separator: no two
adjacent characters both case-fold to the separator. -/
def NoCC (c : Char) (s : Name) : Prop :=
  List.Chain' (fun a b => ¬(ciEq c a = true ∧ ciEq c b = true)) s

theorem rcGo_skip (a : Char) (w' : List Char) :
    ∀ (s : List Char) (skip : Nat),
    rcGo a w' s skip = rcGo a w' (s.drop skip) 0 := by
  intro s
  induction s with
  | nil => intro skip; simp [rcGo]
  | cons c rest ih =>
    intro skip
    cases skip with
    | zero => rfl
    | succ k =>
      show rcGo a w' rest k = _
      rw [ih k]
      rfl

theorem matchLen_single (c c₀ : Char) (rest : List Char) :
    matchLen [c] c (c₀ :: rest)
      = if ciEq c c₀ = true then
          (if (rest.takeWhile (fun x => ciEq c x)).length = 0 then none
           else some (1 + (rest.takeWhile (fun x => ciEq c x)).length))
        else none := by
  unfold matchLen
  cases hc : ciEq c c₀ with
  | true =>
    have hpre : ciIsPrefixOf ([c] ++ [c].dropLast) (c₀ :: rest) = true := by
      simp [ciIsPrefixOf, hc]
    rw [if_pos hpre]
    simp [hc]
  | false =>
    have hpre : ¬ ciIsPrefixOf ([c] ++ [c].dropLast) (c₀ :: rest) = true := by
      simp [ciIsPrefixOf, hc]
    rw [if_neg hpre]
    simp [hc]

theorem rcGo_cons (c c₀ : Char) (rest : List Char) :
    rcGo c [] (c₀ :: rest) 0
      = (match matchLen [c] c (c₀ :: rest) with
        | some m => c :: rcGo c [] (rest.drop (m - 1)) 0
        | none => c₀ :: rcGo c [] rest 0) := by
  show (match matchLen [c] (([c] : List Char).getLast (by simp)) (c₀ :: rest) with
        | some m => [c] ++ rcGo c [] rest (m - 1)
        | none => c₀ :: rcGo c [] rest 0) = _
  have hgl : (([c] : List Char).getLast (by simp)) = c := rfl
  rw [hgl]
  cases hm : matchLen [c] c (c₀ :: rest) with
  | some m =>
    dsimp only
    rw [rcGo_skip]
    rfl
  | none => rfl

theorem takeWhile_drop (p : Char → Bool) :
    ∀ l : List Char, l.drop (l.takeWhile p).length = l.dropWhile p := by
  intro l
  induction l with
  | nil => rfl
  | cons x xs ih =>
    by_cases hx : p x = true
    · have h1 : (x :: xs).takeWhile p = x :: xs.takeWhile p := by
        simp [List.takeWhile_cons, hx]
      have h2 : (x :: xs).dropWhile p = xs.dropWhile p := by
        simp [List.dropWhile_cons, hx]
      rw [h1, h2, List.length_cons, List.drop_succ_cons, ih]
    · have h1 : (x :: xs).takeWhile p = [] := by
        simp [List.takeWhile_cons, hx]
      have h2 : (x :: xs).dropWhile p = x :: xs := by
        simp [List.dropWhile_cons, hx]
      rw [h1, h2]
      rfl

theorem dropWhile_head_false (p : Char → Bool) :
    ∀ (l : List Char) (d : Char) (t : List Char),
    l.dropWhile p = d :: t → p d = false := by
  intro l
  induction l with
  | nil => intro d t h; cases h
  | cons x xs ih =>
    intro d t h
    by_cases hx : p x = true
    · rw [List.dropWhile_cons, if_pos hx] at h
      exact ih d t h
    · rw [List.dropWhile_cons, if_neg hx] at h
      cases h
      simpa using hx

theorem takeWhile_nil_head (p : Char → Bool) (x : Char) (xs : List Char)
    (h : (x :: xs).takeWhile p = []) : p x = false := by
  by_cases hx : p x = true
  · rw [List.takeWhile_cons, if_pos hx] at h
    cases h
  · simpa using hx

theorem rcGo_head_of_not_ci {c d : Char} (t : List Char)
    (hd : ciEq c d = false) :
    (rcGo c [] (d :: t) 0).head? = some d := by
  rw [rcGo_cons, matchLen_single, if_neg (by simp [hd])]
  rfl

theorem rcGo_noCC (c : Char) :
    ∀ (n : Nat) (s : List Char), s.length ≤ n → NoCC c (rcGo c [] s 0) := by
  intro n
  induction n with
  | zero =>
    intro s hs
    have : s = [] := List.length_eq_zero.mp (Nat.le_zero.mp hs)
    subst this
    exact List.chain'_nil
  | succ m ih =>
    intro s hs
    cases s with
    | nil => exact List.chain'_nil
    | cons c₀ rest =>
      rw [rcGo_cons, matchLen_single]
      by_cases hc : ciEq c c₀ = true
      · rw [if_pos hc]
        by_cases hr : (rest.takeWhile (fun x => ciEq c x)).length = 0
        · rw [if_pos hr]
          dsimp only
          apply List.chain'_cons'.mpr
          constructor
          · intro y hy
            cases rest with
            | nil => simp [rcGo] at hy
            | cons d t =>
              have hd : ciEq c d = false :=
                takeWhile_nil_head _ d t (List.length_eq_zero.mp hr)
              rw [rcGo_head_of_not_ci t hd] at hy
              simp only [Option.mem_def, Option.some.injEq] at hy
              subst hy
              intro hcon
              rw [hd] at hcon
              cases hcon.2
          · exact ih rest (by simp only [List.length_cons] at hs; omega)
        · rw [if_neg hr]
          dsimp only
          rw [show 1 + (rest.takeWhile (fun x => ciEq c x)).length - 1
              = (rest.takeWhile (fun x => ciEq c x)).length by omega]
          rw [takeWhile_drop]
          apply List.chain'_cons'.mpr
          constructor
          · intro y hy
            cases hdw : rest.dropWhile (fun x => ciEq c x) with
            | nil =>
              rw [hdw] at hy
              simp [rcGo] at hy
            | cons d t =>
              have hd : ciEq c d = false := dropWhile_head_false _ rest d t hdw
              rw [hdw, rcGo_head_of_not_ci t hd] at hy
              simp only [Option.mem_def, Option.some.injEq] at hy
              subst hy
              intro hcon
              rw [hd] at hcon
              cases hcon.2
          · have hlen : (rest.dropWhile (fun x => ciEq c x)).length ≤ m := by
              have h1 := (List.dropWhile_sublist (l := rest)
                (p := fun x => ciEq c x)).length_le
              simp only [List.length_cons] at hs
              omega
            exact ih _ hlen
      · rw [if_neg hc]
        dsimp only
        apply List.chain'_cons'.mpr
        constructor
        · intro y hy
          intro hcon
          exact hc hcon.1
        · exact ih rest (by simp only [List.length_cons] at hs; omega)

theorem rcGo_of_noCC (c : Char) :
    ∀ (n : Nat) (s : List Char), s.length ≤ n → NoCC c s → rcGo c [] s 0 = s := by
  intro n
  induction n with
  | zero =>
    intro s hs _
    have : s = [] := List.length_eq_zero.mp (Nat.le_zero.mp hs)
    subst this
    rfl
  | succ m ih =>
    intro s hs hncc
    cases s with
    | nil => rfl
    | cons c₀ rest =>
      have htail : NoCC c rest := (List.chain'_cons'.mp hncc).2
      rw [rcGo_cons, matchLen_single]
      by_cases hc : ciEq c c₀ = true
      · have hr : (rest.takeWhile (fun x => ciEq c x)).length = 0 := by
          cases rest with
          | nil => rfl
          | cons d t =>
            have hd : ciEq c d = false := by
              have := (List.chain'_cons'.mp hncc).1 d rfl
              by_cases hdd : ciEq c d = true
              · exact absurd ⟨hc, hdd⟩ this
              · simpa using hdd
            rw [List.takeWhile_cons, if_neg (by simp [hd])]
            rfl
        rw [if_pos hc, if_pos hr]
        dsimp only
        rw [ih rest (by simp only [List.length_cons] at hs; omega) htail]
      · rw [if_neg hc]
        dsimp only
        rw [ih rest (by simp only [List.length_cons] at hs; omega) htail]

theorem rcGo_subset (c : Char) :
    ∀ (n : Nat) (s : List Char), s.length ≤ n →
    ∀ x ∈ rcGo c [] s 0, x ∈ s ∨ x = c := by
  intro n
  induction n with
  | zero =>
    intro s hs x hx
    have : s = [] := List.length_eq_zero.mp (Nat.le_zero.mp hs)
    subst this
    simp [rcGo] at hx
  | succ m ih =>
    intro s hs x hx
    cases s with
    | nil => simp [rcGo] at hx
    | cons c₀ rest =>
      rw [rcGo_cons] at hx
      cases hm : matchLen [c] c (c₀ :: rest) with
      | some mm =>
        rw [hm] at hx
        dsimp only at hx
        rcases List.mem_cons.mp hx with hxc | hxrec
        · right; exact hxc
        · have hlen : (rest.drop (mm - 1)).length ≤ m := by
            have hld := List.length_drop (mm - 1) rest
            simp only [List.length_cons] at hs
            omega
          rcases ih _ hlen x hxrec with hmem | hxc
          · left
            exact List.mem_cons_of_mem _ (List.mem_of_mem_drop hmem)
          · right; exact hxc
      | none =>
        rw [hm] at hx
        dsimp only at hx
        rcases List.mem_cons.mp hx with hxc | hxrec
        · left; rw [hxc]; exact List.mem_cons_self _ _
        · rcases ih rest (by simp only [List.length_cons] at hs; omega) x hxrec with hmem | hxc
          · left; exact List.mem_cons_of_mem _ hmem
          · right; exact hxc

theorem singleton_isPrefixOf_iff (x : Char) (l : List Char) :
    (([x] : List Char).isPrefixOf l = true) ↔ l.head? = some x := by
  cases l with
  | nil => simp [List.isPrefixOf]
  | cons d t =>
    simp only [List.isPrefixOf, List.isPrefixOf_nil_left, Bool.and_true, beq_iff_eq,
      List.head?_cons, Option.some.injEq]
    constructor
    · intro h; exact h.symm
    · intro h; exact h.symm

theorem singleton_isSuffixOf_iff (x : Char) (l : List Char) :
    (([x] : List Char).isSuffixOf l = true) ↔ l.getLast? = some x := by
  show (([x] : List Char).reverse.isPrefixOf l.reverse = true) ↔ _
  have : ([x] : List Char).reverse = [x] := rfl
  rw [this, singleton_isPrefixOf_iff, List.head?_reverse]

theorem ciEq_self (c : Char) : ciEq c c = true := by simp [ciEq]

theorem removeXfixSep_single (c : Char) (u : Name) (h : NoCC c u) :
    (removeXfixSep u [c]).head? ≠ some c ∧
    (removeXfixSep u [c]).getLast? ≠ some c ∧
    NoCC c (removeXfixSep u [c]) ∧
    (∀ x ∈ removeXfixSep u [c], x ∈ u) := by
  obtain ⟨s1, hs1eq, hs1h, hs1n, hs1sub⟩ :
      ∃ s1, (if ([c] : Name).isPrefixOf u then u.drop ([c] : Name).length else u) = s1 ∧
        s1.head? ≠ some c ∧ NoCC c s1 ∧ (∀ x ∈ s1, x ∈ u) := by
    by_cases hpre : ([c] : Name).isPrefixOf u = true
    · refine ⟨u.drop 1, by rw [if_pos hpre]; rfl, ?_, List.Chain'.drop h 1,
        fun x hx => List.mem_of_mem_drop hx⟩
      have hu : u.head? = some c := (singleton_isPrefixOf_iff c u).mp hpre
      cases u with
      | nil => cases hu
      | cons a rest =>
        simp only [List.head?_cons, Option.some.injEq] at hu
        show rest.head? ≠ some c
        cases rest with
        | nil => simp
        | cons d t =>
          have hcd := (List.chain'_cons'.mp h).1 d rfl
          simp only [List.head?_cons, ne_eq, Option.some.injEq]
          intro hdc
          apply hcd
          constructor
          · rw [hu]; exact ciEq_self c
          · rw [hdc]; exact ciEq_self c
    · refine ⟨u, by rw [if_neg hpre], ?_, h, fun x hx => hx⟩
      intro hu
      exact hpre ((singleton_isPrefixOf_iff c u).mpr hu)
  unfold removeXfixSep
  rw [hs1eq]
  by_cases hsuf : ([c] : Name).isSuffixOf s1 = true
  · rw [if_pos hsuf]
    have hlast : s1.getLast? = some c := (singleton_isSuffixOf_iff c s1).mp hsuf
    have hne : s1 ≠ [] := by
      intro h0
      rw [h0] at hlast
      cases hlast
    have hgl : s1.getLast hne = c := by
      rw [List.getLast?_eq_getLast s1 hne] at hlast
      exact Option.some.inj hlast
    have hdecomp : s1.take (s1.length - ([c] : Name).length) ++ [c] = s1 := by
      have h1 := List.dropLast_append_getLast hne
      rw [hgl] at h1
      rw [show (([c] : Name).length = 1) from rfl, ← List.dropLast_eq_take]
      exact h1
    have hchain : NoCC c (s1.take (s1.length - ([c] : Name).length) ++ [c]) := by
      rw [hdecomp]
      exact hs1n
    obtain ⟨hn2, _, hbound⟩ := List.chain'_append.mp hchain
    refine ⟨?_, ?_, hn2, ?_⟩
    · cases htk : s1.take (s1.length - ([c] : Name).length) with
      | nil => simp
      | cons d t =>
        rw [← hdecomp, htk] at hs1h
        simp only [List.cons_append, List.head?_cons, ne_eq, Option.some.injEq] at hs1h
        simp only [List.head?_cons, ne_eq, Option.some.injEq]
        exact hs1h
    · intro hcl
      exact hbound c hcl c rfl ⟨ciEq_self c, ciEq_self c⟩
    · intro x hx
      exact hs1sub x (List.mem_of_mem_take hx)
  · rw [if_neg hsuf]
    refine ⟨hs1h, ?_, hs1n, hs1sub⟩
    intro hl
    exact hsuf ((singleton_isSuffixOf_iff c s1).mpr hl)

theorem removeXfixSep_stable (c : Char) (u : Name)
    (hh : u.head? ≠ some c) (hl : u.getLast? ≠ some c) :
    removeXfixSep u [c] = u := by
  unfold removeXfixSep
  rw [if_neg (fun hp => hh ((singleton_isPrefixOf_iff c u).mp hp))]
  rw [if_neg (fun hs => hl ((singleton_isSuffixOf_iff c u).mp hs))]

/-- Stability invariant for a transformed stem under a single-character
separator `c` and single-character ToSepWords `keys`: every character is
fixed by the to-sep character map, no two adjacent characters case-fold
to the separator, and the stem neither starts nor ends with it. -/
def PGood (c : Char) (keys : List Char) (t : Name) : Prop :=
  (∀ x ∈ t, mchar keys c x = x) ∧ NoCC c t ∧ t.head? ≠ some c ∧ t.getLast? ≠ some c

theorem mchar_sep (keys : List Char) (c : Char) : mchar keys c c = c := by
  unfold mchar
  by_cases hc : c ∈ keys <;> simp [hc]

theorem toSepPass_single (c : Char) (keys : List Char) (t : Name) :
    replacePass ((keys.map fun k => [k]).map fun w => (w, ([c] : Name))) t
      = t.map (mchar keys c) := by
  rw [List.map_map]
  exact toSepPass_eq_map c keys t

theorem toSepPass_single_idem (c : Char) (keys : List Char) (t : Name) :
    replacePass ((keys.map fun k => [k]).map fun w => (w, ([c] : Name)))
      (replacePass ((keys.map fun k => [k]).map fun w => (w, ([c] : Name))) t)
      = replacePass ((keys.map fun k => [k]).map fun w => (w, ([c] : Name))) t := by
  rw [toSepPass_single, toSepPass_single, List.map_map]
  apply List.map_congr_left
  intro x _
  exact mchar_fix_image keys c x

theorem fdnFStem_single_good {c : Char} {keys : List Char} {f1 f2 : Nat}
    {st S : Name} (hf1 : 1 ≤ f1)
    (h : fdnFStem [c] (keys.map fun k => [k]) [] f1 f2 st = some S) :
    PGood c keys S := by
  obtain ⟨n, rfl⟩ : ∃ n, f1 = n + 1 := ⟨f1 - 1, by omega⟩
  unfold fdnFStem at h
  rw [fixLoop_of_idem (toSepPass_single_idem c keys st) n, toSepPass_single,
    fixLoop_nil_rules] at h

  have hrc : removeContinuous (st.map (mchar keys c)) [c]
      = some (rcGo c [] (st.map (mchar keys c)) 0) := rfl
  rw [hrc] at h
  simp only [Option.map_some', Option.some.injEq] at h
  subst h
  have hnccU : NoCC c (rcGo c [] (st.map (mchar keys c)) 0) :=
    rcGo_noCC c _ _ (Nat.le_refl _)
  obtain ⟨hh, hl, hncc, hsub⟩ := removeXfixSep_single c _ hnccU
  refine ⟨?_, hncc, hh, hl⟩
  intro x hx
  rcases rcGo_subset c _ _ (Nat.le_refl _) x (hsub x hx) with hmem | hxc
  · obtain ⟨y, _, hy⟩ := List.mem_map.mp hmem
    rw [← hy]
    exact mchar_fix_image keys c y
  · rw [hxc]
    exact mchar_sep keys c

theorem fdnFStem_single_stable {c : Char} {keys : List Char} (g1 g2 : Nat)
    {S : Name} (hP : PGood c keys S) :
    fdnFStem [c] (keys.map fun k => [k]) [] g1 g2 S = some S := by
  obtain ⟨hfix, hncc, hh, hl⟩ := hP
  unfold fdnFStem
  have hpass : replacePass ((keys.map fun k => [k]).map fun w => (w, ([c] : Name))) S
      = S := by
    rw [toSepPass_single]
    exact mapFixed hfix
  rw [fixLoop_fixed hpass g1, fixLoop_nil_rules]
  have hrc : removeContinuous S [c] = some (rcGo c [] S 0) := rfl
  rw [hrc, rcGo_of_noCC c S.length S (Nat.le_refl _) hncc]
  simp only [Option.map_some', Option.some.injEq]
  exact removeXfixSep_stable c S hh hl

theorem findIdx?_acc (p : Char → Bool) :
    ∀ (l : List Char) (i : Nat),
    List.findIdx? p l i = (List.findIdx? p l 0).map (· + i) := by
  intro l
  induction l with
  | nil => intro i; simp
  | cons a t ih =>
    intro i
    rw [List.findIdx?_cons, List.findIdx?_cons]
    by_cases ha : p a = true
    · simp [ha]
    · rw [if_neg ha, if_neg ha, ih (i + 1), ih 1, Option.map_map]
      cases List.findIdx? p t 0 with
      | none => rfl
      | some j =>
        simp only [Option.map_some', Function.comp_apply, Option.some.injEq]
        omega

theorem findIdx?_append_none (p : Char → Bool) :
    ∀ (l1 : List Char), (∀ x ∈ l1, p x = false) →
    ∀ (x0 : Char) (l2 : List Char), p x0 = true →
    List.findIdx? p (l1 ++ x0 :: l2) 0 = some l1.length := by
  intro l1
  induction l1 with
  | nil =>
    intro _ x0 l2 hx0
    rw [List.nil_append, List.findIdx?_cons, if_pos hx0]
    rfl
  | cons a t ih =>
    intro hfalse x0 l2 hx0
    rw [List.cons_append, List.findIdx?_cons,
      if_neg (by simp [hfalse a (List.mem_cons_self a t)]),
      findIdx?_acc, ih (fun x hx => hfalse x (List.mem_cons_of_mem a hx)) x0 l2 hx0]
    simp only [Option.map_some', List.length_cons, Option.some.injEq]
    try omega

theorem findIdx?_found_bound (p : Char → Bool) :
    ∀ (l : List Char) (j : Nat), List.findIdx? p l 0 = some j →
    j < l.length ∧ ∀ x ∈ l.take j, p x = false := by
  intro l
  induction l with
  | nil => intro j h; rw [List.findIdx?_nil] at h; cases h
  | cons a t ih =>
    intro j h
    rw [List.findIdx?_cons] at h
    by_cases ha : p a = true
    · rw [if_pos ha] at h
      cases h
      exact ⟨by simp, by simp⟩
    · rw [if_neg ha, findIdx?_acc] at h
      cases hj0 : List.findIdx? p t 0 with
      | none => rw [hj0] at h; cases h
      | some j0 =>
        rw [hj0] at h
        simp only [Option.map_some', Option.some.injEq] at h
        obtain ⟨hb, htake⟩ := ih j0 hj0
        constructor
        · simp only [List.length_cons]; omega
        · intro x hx
          rw [← h] at hx
          rw [List.take_succ_cons] at hx
          rcases List.mem_cons.mp hx with hxa | hxt
          · rw [hxa]; simpa using ha
          · exact htake x hxt

theorem lastDotIdx_no_dot_after {n : Name} {i : Nat}
    (h : lastDotIdx n = some i) : ∀ x ∈ n.drop (i + 1), x ≠ '.' := by
  unfold lastDotIdx at h
  cases hj : n.reverse.findIdx? (fun c => c = '.') with
  | none => rw [hj] at h; cases h
  | some j =>
    rw [hj] at h
    simp only [Option.some.injEq] at h
    obtain ⟨hb, htake⟩ := findIdx?_found_bound _ _ _ hj
    rw [List.length_reverse] at hb
    intro x hx
    have hrevtake : (n.drop (i + 1)).reverse = n.reverse.take j := by
      rw [List.reverse_drop]
      congr 1
      omega
    have hxr : x ∈ n.reverse.take j := by
      rw [← hrevtake]
      exact List.mem_reverse.mpr hx
    have := htake x hxr
    simpa using this

theorem extensionOf_no_dot {n e : Name} (h : extensionOf n = some e) :
    '.' ∉ e := by
  unfold extensionOf at h
  split at h
  · cases h
  · cases hld : lastDotIdx n with
    | none => rw [hld] at h; cases h
    | some i =>
      rw [hld] at h
      cases i with
      | zero => cases h
      | succ i0 =>
        simp only [Option.some.injEq] at h
        intro hdot
        have := lastDotIdx_no_dot_after hld '.' (h ▸ hdot)
        exact this rfl

theorem split_join (S e : Name) (hS : S ≠ []) (he : '.' ∉ e)
    (hbad : ¬(S ++ '.' :: e = [] ∨ S ++ '.' :: e = ['.'] ∨ S ++ '.' :: e = ['.', '.'])) :
    fileStem (S ++ '.' :: e) = some S ∧ extensionOf (S ++ '.' :: e) = some e := by
  have hld : lastDotIdx (S ++ '.' :: e) = some S.length := by
    unfold lastDotIdx
    have hrev : (S ++ '.' :: e).reverse = e.reverse ++ '.' :: S.reverse := by
      simp
    rw [hrev, findIdx?_append_none _ e.reverse
      (fun x hx => by
        simp only [decide_eq_false_iff_not]
        intro hxd
        exact he (hxd ▸ List.mem_reverse.mp hx))
      '.' S.reverse (by simp)]
    simp only [Option.some.injEq, List.length_append, List.length_cons,
      List.length_reverse]
    omega
  obtain ⟨m, hm⟩ : ∃ m, S.length = m + 1 := by
    cases hsl : S.length with
    | zero => exact absurd (List.length_eq_zero.mp hsl) hS
    | succ k => exact ⟨k, rfl⟩
  constructor
  · unfold fileStem
    rw [if_neg hbad, hld, hm]
    simp only
    rw [← hm, List.take_left]
  · unfold extensionOf
    rw [if_neg hbad, hld, hm]
    simp only
    rw [← hm]
    have hassoc : S ++ '.' :: e = (S ++ ['.']) ++ e := by simp
    rw [hassoc, show S.length + 1 = (S ++ ['.']).length by simp, List.drop_left]

/-- C4 (amended).  The transformation pipeline of `fdn_f` is idempotent
for a single-character separator, single-character ToSepWords and no
TermWords — for directory names unconditionally, and for file names
whose original name carries an extension, provided the transformed stem
is non-empty and the result is not the special component `..` (the
counterexample shows idempotence fails for general interacting rule
sets, and the stem/extension re-split adds the further provisos). -/
theorem fdn_f_idempotent_single_char :
    ∀ (c : Char) (keys : List Char) (f1 f2 g1 g2 : Nat) (isFile : Bool)
      (base out : Name),
    1 ≤ f1 →
    fdnFName [[c]] (keys.map fun k => [k]) [] f1 f2 isFile base = some out →
    (isFile = true →
      (∀ st S, fileStem base = some st →
        fdnFStem [c] (keys.map fun k => [k]) [] f1 f2 st = some S → S ≠ []) ∧
      extensionOf base ≠ none ∧ out ≠ ['.', '.']) →
    fdnFName [[c]] (keys.map fun k => [k]) [] g1 g2 isFile out = some out := by
  intro c keys f1 f2 g1 g2 isFile base out hf1 h hfile
  have hsep : sepOf [[c]] = [c] := rfl
  cases isFile with
  | false =>
    unfold fdnFName at h ⊢
    rw [hsep] at h ⊢
    simp only [Bool.false_eq_true, if_false] at h ⊢
    cases hS : fdnFStem [c] (keys.map fun k => [k]) [] f1 f2 base with
    | none =>
      rw [hS] at h
      exact absurd h (by simp)
    | some S =>
      rw [hS] at h
      have hout : out = S := (Option.some.inj h).symm
      subst hout
      rw [fdnFStem_single_stable g1 g2 (fdnFStem_single_good hf1 hS)]
  | true =>
    obtain ⟨hne, hext, hdd⟩ := hfile rfl
    obtain ⟨e, he⟩ := Option.ne_none_iff_exists'.mp hext
    unfold fdnFName at h ⊢
    rw [hsep] at h ⊢
    simp only [if_true] at h ⊢
    cases hst : fileStem base with
    | none =>
      rw [hst] at h
      exact absurd h (by simp)
    | some st =>
      rw [hst] at h
      dsimp only at h
      cases hS : fdnFStem [c] (keys.map fun k => [k]) [] f1 f2 st with
      | none =>
        rw [hS] at h
        exact absurd h (by simp)
      | some S =>
        rw [hS, he] at h
        dsimp only at h
        have hout : out = S ++ '.' :: e := (Option.some.inj h).symm
        have hSne : S ≠ [] := hne st S hst hS
        have hedot : '.' ∉ e := extensionOf_no_dot he
        have hbad : ¬(S ++ '.' :: e = [] ∨ S ++ '.' :: e = ['.']
            ∨ S ++ '.' :: e = ['.', '.']) := by
          rintro (h1 | h2 | h3)
          · exact hSne (List.append_eq_nil.mp h1).1
          · have hlen := congrArg List.length h2
            rw [List.length_append, List.length_cons] at hlen
            have hone : (['.'] : Name).length = 1 := rfl
            have hS0 : S.length = 0 := by omega
            exact hSne (List.length_eq_zero.mp hS0)
          · exact hdd (hout.trans h3)
        obtain ⟨hfs, hex⟩ := split_join S e hSne hedot hbad
        subst hout
        rw [hfs]
        dsimp only
        rw [fdnFStem_single_stable g1 g2 (fdnFStem_single_good hf1 hS)]
        dsimp only
        rw [hex]

/-- C4 witness: the directory name `My File` with separator `_` and
ToSepWord `" "` transforms to `My_File`; transforming `My_File` again
leaves it unchanged. -/
theorem fdn_f_idempotent_single_char_witness :
    fdnFName [['_']] [[' ']] [] 2 2 false "My_File".data = some "My_File".data :=
  fdn_f_idempotent_single_char '_' [' '] 2 2 2 2 false "My File".data
    "My_File".data (by decide) (by decide) (fun hh => nomatch hh)

end Fdn
